import Mathlib

/-!
# Verification of the bigram name generator

A shallow embedding of `src/main.py`, a character-level bigram model:
the script reads a list of names (`words`), derives the sorted character
alphabet, builds a `(vocab_size × vocab_size)` bigram count matrix with a
boundary symbol `'^'` at index 0, normalizes each row by its sum into a
probability table, and samples a new name by a Markov walk from index 0
until index 0 is drawn again.

Modelling conventions:
* Python lists/strings become Lean `List`/`String`.
* The count tensor `bigram_counts` becomes a function `ℕ → ℕ → ℕ`; cell
  `(i, j)` is the number of adjacent pairs, over all boundary-padded
  tokens, whose characters map to indices `i` and `j` — the denotation of
  the incrementing double loop.
* Float arithmetic is idealized by exact rationals `ℚ`, except that a
  division whose denominator is `0` yields `none` (IEEE `0.0/0.0` is NaN
  and `x/0.0` is infinite, i.e. the result is not a real number); so the
  probability table has entries in `Option ℚ`.
* `torch.multinomial(probs, 1)` is modelled by inverse-CDF sampling from
  the exact rational row, consuming one uniform draw `u ∈ [0,1)` from an
  explicit stream; the generation `while` loop becomes a recursion over
  the finite stream of draws consumed.
-/

/-- `words`: the corpus, a list of tokens (`names.txt` split into lines). -/
abbrev Corpus := List String

/-- The characters of the corpus, i.e. of `"".join(words)`. -/
def corpusChars (words : Corpus) : List Char :=
  (String.join words).data

/-- `characters = sorted(list(set("".join(words))))`: the sorted list of
distinct characters occurring in the corpus. -/
def characters (words : Corpus) : List Char :=
  (corpusChars words).dedup.insertionSort (· ≤ ·)

/-- `vocab_size = len(characters) + 1` (the extra slot is the boundary `'^'`). -/
def vocab_size (words : Corpus) : ℕ :=
  (characters words).length + 1

/-- The dict `stoi`: built as `{s: i+1 for i, s in enumerate(characters)}`
then overwritten by `stoi['^'] = 0`, so `'^'` maps to 0 even when `'^'`
occurs in the corpus (in which case its enumerate entry is lost).
`none` models a `KeyError`. -/
def stoi (words : Corpus) (c : Char) : Option ℕ :=
  if c = '^' then some 0
  else if c ∈ characters words then some ((characters words).indexOf c + 1)
  else none

/-- The dict `itos = {i: s for s, i in stoi.items()}`: index 0 goes to `'^'`;
index `i ≥ 1` goes to `characters[i-1]` unless that character is `'^'`
(whose dict entry was overwritten, leaving index `i` with no key). -/
def itos (words : Corpus) (i : ℕ) : Option Char :=
  if i = 0 then some '^'
  else
    match (characters words).get? (i - 1) with
    | some c => if c = '^' then none else some c
    | none => none

/-- `padded_name = ['^'] + list(name) + ['^']`. -/
def padded_name (name : String) : List Char :=
  '^' :: name.data ++ ['^']

/-- `zip(padded_name, padded_name[1:])`: the adjacent pairs of one padded token. -/
def namePairs (name : String) : List (Char × Char) :=
  (padded_name name).zip (padded_name name).tail

/-- All `(ch1, ch2)` pairs visited by the counting double loop, in order. -/
def allPairs (words : Corpus) : List (Char × Char) :=
  words.flatMap namePairs

/-- `bigram_counts[i][j]` after the counting loop: the number of visited
pairs whose components map through `stoi` to `i` and `j`. -/
def bigram_counts (words : Corpus) (i j : ℕ) : ℕ :=
  (allPairs words).countP
    (fun p => decide (stoi words p.1 = some i ∧ stoi words p.2 = some j))

/-- `bigram_counts.sum(1)`: the row sum over the `vocab_size` columns. -/
def rowSumN (words : Corpus) (i : ℕ) : ℕ :=
  ∑ j in Finset.range (vocab_size words), bigram_counts words i j

/-- Float division of nonnegative data: `none` when the denominator is `0`
(IEEE NaN/∞, not a real number), otherwise the exact quotient. -/
def floatDiv (a b : ℚ) : Option ℚ :=
  if b = 0 then none else some (a / b)

/-- `normalized_bigram_counts = bigram_counts / bigram_counts.sum(1, keepdim=True)`:
entry `(i, j)` of the probability table, as the float model. -/
def normalized_bigram_counts (words : Corpus) (i j : ℕ) : Option ℚ :=
  floatDiv (bigram_counts words i j) (rowSumN words i)

/-- The rational value of probability-table entry `(i, j)` (the real number
the float entry rounds, whenever the row sum is nonzero). -/
def probVal (words : Corpus) (i j : ℕ) : ℚ :=
  (bigram_counts words i j : ℚ) / (rowSumN words i : ℚ)

/-- Cumulative distribution of row `i` up to and including column `j`. -/
def cumProb (words : Corpus) (i j : ℕ) : ℚ :=
  ∑ k in Finset.range (j + 1), probVal words i k

/-- `torch.multinomial(probs, 1).item()` modelled by inverse-CDF sampling:
the first index whose cumulative probability exceeds the uniform draw `u`. -/
def sampleIdx (words : Corpus) (i : ℕ) (u : ℚ) : ℕ :=
  (((List.range (vocab_size words)).find?
      (fun j => decide (u < cumProb words i j))).getD (vocab_size words - 1))

/-- The generation `while` loop from state `i`, consuming uniform draws `us`:
draw an index; if `itos` maps it to `'^'` stop, if it maps to another
character print it and continue, and on a missing key (`KeyError`) stop.
Returns the characters printed. -/
def genFrom (words : Corpus) (i : ℕ) : List ℚ → List Char
  | [] => []
  | u :: us =>
    let d := sampleIdx words i u
    match itos words d with
    | some c => if c = '^' then [] else c :: genFrom words d us
    | none => []

/-- One run of the sampling loop: start at `sampled_index = 0`. -/
def generate (words : Corpus) (us : List ℚ) : List Char :=
  genFrom words 0 us

/-- `loopSurvive words n i`: the probability, under the transition
probabilities of the table, that the sampling loop starting in state `i`
has not drawn the boundary index 0 within its next `n` draws — the
standard probabilistic semantics of the `while` loop. `n = 0` gives 1;
one more draw sums, over the non-boundary columns, the transition
probability times the survival of the remaining draws. -/
def loopSurvive (words : Corpus) : ℕ → ℕ → ℚ
  | 0, _ => 1
  | n + 1, i =>
    ∑ j in (Finset.range (vocab_size words)).erase 0,
      probVal words i j * loopSurvive words n j

/-! ## Basic facts about the vocabulary -/

theorem characters_nodup (words : Corpus) : (characters words).Nodup :=
  (List.perm_insertionSort _ _).symm.nodup (List.nodup_dedup _)

theorem mem_characters {words : Corpus} {c : Char} :
    c ∈ characters words ↔ c ∈ corpusChars words := by
  unfold characters
  rw [(List.perm_insertionSort _ _).mem_iff, List.mem_dedup]

theorem corpusChars_flatten (words : Corpus) :
    corpusChars words = (words.map String.data).flatten := by
  suffices h : ∀ (l : List String) (init : String),
      (l.foldl (fun r s => r ++ s) init).data = init.data ++ (l.map String.data).flatten by
    simpa using h words ""
  intro l
  induction l with
  | nil => intro init; simp
  | cons w l ih =>
    intro init
    simp only [List.foldl_cons, ih, String.data_append, List.map_cons, List.flatten_cons,
      List.append_assoc]

theorem mem_corpusChars {words : Corpus} {c : Char} :
    c ∈ corpusChars words ↔ ∃ w ∈ words, c ∈ w.data := by
  rw [corpusChars_flatten, List.mem_flatten]
  constructor
  · rintro ⟨l, hl, hc⟩
    obtain ⟨w, hw, rfl⟩ := List.mem_map.1 hl
    exact ⟨w, hw, hc⟩
  · rintro ⟨w, hw, hc⟩
    exact ⟨w.data, List.mem_map.2 ⟨w, hw, rfl⟩, hc⟩

theorem stoi_boundary (words : Corpus) : stoi words '^' = some 0 := by
  simp [stoi]

theorem stoi_of_mem {words : Corpus} {c : Char} (hc : c ∈ characters words)
    (hne : c ≠ '^') : stoi words c = some ((characters words).indexOf c + 1) := by
  simp [stoi, hne, hc]

theorem stoi_lt {words : Corpus} {c : Char} {k : ℕ} (h : stoi words c = some k) :
    k < vocab_size words := by
  unfold stoi at h
  split at h
  · cases h; exact Nat.succ_le_succ (Nat.zero_le _)
  · split at h
    · cases h
      have : (characters words).indexOf c < (characters words).length :=
        List.indexOf_lt_length.2 (by assumption)
      exact Nat.succ_lt_succ this
    · cases h

theorem vocab_size_pos (words : Corpus) : 0 < vocab_size words :=
  Nat.succ_le_succ (Nat.zero_le _)

/-- Every character of a padded corpus token has a `stoi` index below `vocab_size`. -/
theorem stoi_padded {words : Corpus} {w : String} {c : Char} (hw : w ∈ words)
    (hc : c ∈ padded_name w) : ∃ a, stoi words c = some a ∧ a < vocab_size words := by
  by_cases hb : c = '^'
  · exact ⟨0, by rw [hb, stoi_boundary], vocab_size_pos words⟩
  · have hcd : c ∈ w.data := by
      unfold padded_name at hc
      rcases List.mem_cons.1 hc with h | h
      · exact absurd h hb
      · rcases List.mem_append.1 h with h | h
        · exact h
        · exact absurd (List.mem_singleton.1 h) hb
    have hcc : c ∈ characters words :=
      mem_characters.2 (mem_corpusChars.2 ⟨w, hw, hcd⟩)
    exact ⟨(characters words).indexOf c + 1, stoi_of_mem hcc hb,
      Nat.succ_lt_succ (List.indexOf_lt_length.2 hcc)⟩

/-! ## C6 and C7: the Frequency Table on two tiny corpora -/

/-- C6: for the corpus consisting of the single token `"ab"` (alphabet
`{a, b}`, so `vocab_size = 3` with `'^' ↦ 0`, `'a' ↦ 1`, `'b' ↦ 2`), the
Frequency Table records the transitions boundary→a, a→b and b→boundary
with count 1 each, and every other of the nine cells is 0. -/
theorem C6_freq_table_single_ab :
    vocab_size ["ab"] = 3 ∧
    stoi ["ab"] '^' = some 0 ∧ stoi ["ab"] 'a' = some 1 ∧ stoi ["ab"] 'b' = some 2 ∧
    bigram_counts ["ab"] 0 1 = 1 ∧
    bigram_counts ["ab"] 1 2 = 1 ∧
    bigram_counts ["ab"] 2 0 = 1 ∧
    bigram_counts ["ab"] 0 0 = 0 ∧ bigram_counts ["ab"] 0 2 = 0 ∧
    bigram_counts ["ab"] 1 0 = 0 ∧ bigram_counts ["ab"] 1 1 = 0 ∧
    bigram_counts ["ab"] 2 1 = 0 ∧ bigram_counts ["ab"] 2 2 = 0 := by
  decide

/-- C7: for the corpus consisting of one empty-string token, the counting
loop performs exactly one increment, on the boundary→boundary cell; every
other cell is 0, and every `stoi` lookup the loop performs succeeds (no
`KeyError`), so the build does not crash. -/
theorem C7_freq_table_empty_token :
    vocab_size [""] = 1 ∧
    bigram_counts [""] 0 0 = 1 ∧
    (∀ i j : ℕ, ¬(i = 0 ∧ j = 0) → bigram_counts [""] i j = 0) ∧
    ((allPairs [""]).all
      fun p => (stoi [""] p.1).isSome && (stoi [""] p.2).isSome) = true := by
  refine ⟨by decide, by decide, ?_, by decide⟩
  intro i j hij
  have hall : allPairs [""] = [('^', '^')] := rfl
  have hs : stoi [""] '^' = some 0 := by decide
  rw [bigram_counts, hall]
  rw [List.countP_cons, List.countP_nil]
  simp only [hs, decide_eq_true_eq, Option.some_inj]
  rw [if_neg]
  rintro ⟨h1, h2⟩
  exact hij ⟨h1.symm, h2.symm⟩

/-- Witness for the universally quantified part of `C7_freq_table_empty_token`:
the cell (1, 0) is not the boundary self-loop and holds count 0. -/
theorem C7_freq_table_empty_token_witness :
    ¬((1 : ℕ) = 0 ∧ (0 : ℕ) = 0) ∧ bigram_counts [""] 1 0 = 0 :=
  ⟨by decide, C7_freq_table_empty_token.2.2.1 1 0 (by decide)⟩

/-! ## C10: total mass of the Frequency Table -/

/-- Each pair visited by the counting loop is counted in exactly one cell
of the `vocab_size × vocab_size` table. -/
theorem allPairs_good {words : Corpus} {p : Char × Char} (hp : p ∈ allPairs words) :
    ∃ a b, stoi words p.1 = some a ∧ a < vocab_size words ∧
      stoi words p.2 = some b ∧ b < vocab_size words := by
  obtain ⟨w, hw, hpw⟩ := List.mem_flatMap.1 hp
  obtain ⟨p1, p2⟩ := p
  have hmem := List.of_mem_zip hpw
  obtain ⟨a, ha, halt⟩ := stoi_padded hw hmem.1
  obtain ⟨b, hb, hblt⟩ := stoi_padded hw (List.mem_of_mem_tail hmem.2)
  exact ⟨a, b, ha, halt, hb, hblt⟩

theorem sum_ite_pair {V a b : ℕ} (ha : a < V) (hb : b < V) :
    (∑ i ∈ Finset.range V, ∑ j ∈ Finset.range V,
      if a = i ∧ b = j then (1 : ℕ) else 0) = 1 := by
  have inner : ∀ i : ℕ, (∑ j ∈ Finset.range V, if a = i ∧ b = j then (1 : ℕ) else 0)
      = if a = i then 1 else 0 := by
    intro i
    by_cases hai : a = i
    · simp [hai, Finset.sum_ite_eq, Finset.mem_range, hb]
    · simp [hai]
  rw [Finset.sum_congr rfl fun i _ => inner i]
  simp [Finset.sum_ite_eq, Finset.mem_range, ha]

theorem sum_sum_countP (words : Corpus) :
    ∀ l : List (Char × Char),
      (∀ p ∈ l, ∃ a b, stoi words p.1 = some a ∧ a < vocab_size words ∧
        stoi words p.2 = some b ∧ b < vocab_size words) →
      (∑ i ∈ Finset.range (vocab_size words), ∑ j ∈ Finset.range (vocab_size words),
        l.countP (fun p => decide (stoi words p.1 = some i ∧ stoi words p.2 = some j)))
        = l.length := by
  intro l
  induction l with
  | nil => intro _; simp
  | cons hd tl ih =>
    intro h
    obtain ⟨a, b, ha, halt, hb, hblt⟩ := h hd (List.mem_cons_self hd tl)
    have htl := fun p hp => h p (List.mem_cons_of_mem hd hp)
    simp only [List.countP_cons, decide_eq_true_eq, Finset.sum_add_distrib, ih htl,
      List.length_cons]
    congr 1
    calc (∑ i ∈ Finset.range (vocab_size words), ∑ j ∈ Finset.range (vocab_size words),
            if stoi words hd.1 = some i ∧ stoi words hd.2 = some j then (1 : ℕ) else 0)
        = ∑ i ∈ Finset.range (vocab_size words), ∑ j ∈ Finset.range (vocab_size words),
            if a = i ∧ b = j then (1 : ℕ) else 0 := by
          refine Finset.sum_congr rfl fun i _ => Finset.sum_congr rfl fun j _ => ?_
          rw [ha, hb]
          simp only [Option.some_inj]
      _ = 1 := sum_ite_pair halt hblt

/-- The number of pairs the loop visits for one token is its length plus one. -/
theorem namePairs_length (w : String) : (namePairs w).length = w.length + 1 := by
  have hlen : w.length = w.data.length := rfl
  have h1 : (padded_name w).length = w.data.length + 2 := by simp [padded_name]
  rw [namePairs, List.length_zip, List.length_tail, h1, hlen]
  rw [show w.data.length + 2 - 1 = w.data.length + 1 from rfl]
  rw [min_eq_right (by omega)]

/-- C10: the total of all cells of the Frequency Table over the
`vocab_size × vocab_size` index range equals the sum over all corpus
tokens of (token length + 1): each token of length `n` contributes exactly
`n + 1` increments (start, `n - 1` internal, end), and nothing else
writes the matrix. -/
theorem C10_total_count (words : Corpus) :
    (∑ i ∈ Finset.range (vocab_size words), ∑ j ∈ Finset.range (vocab_size words),
      bigram_counts words i j)
      = (words.map fun w => w.length + 1).sum := by
  have h1 : (∑ i ∈ Finset.range (vocab_size words), ∑ j ∈ Finset.range (vocab_size words),
      bigram_counts words i j) = (allPairs words).length :=
    sum_sum_countP words (allPairs words) fun p hp => allPairs_good hp
  rw [h1, allPairs, List.length_flatMap]
  exact congrArg List.sum (List.map_congr_left fun w _ => namePairs_length w)

/-! ## C1: rows with positive count mass normalize to distributions -/

/-- C1: for every corpus and every row `i` whose Frequency Table row-sum is
nonzero, the division defining the Probability Table is well defined on the
whole row (each entry is the real number `count / row-sum`, no NaN), and the
row sums exactly to 1 — hence to 1.0 within any floating-point tolerance in
the idealized float model. -/
theorem C1_row_stochastic (words : Corpus) (i : ℕ) (h : 0 < rowSumN words i) :
    (∀ j, normalized_bigram_counts words i j = some (probVal words i j)) ∧
    (∑ j ∈ Finset.range (vocab_size words), probVal words i j) = 1 := by
  have hS : ((rowSumN words i : ℕ) : ℚ) ≠ 0 := by
    exact_mod_cast h.ne'
  constructor
  · intro j
    rw [normalized_bigram_counts, floatDiv, if_neg hS]
    rfl
  · unfold probVal
    rw [← Finset.sum_div, ← Nat.cast_sum, ← rowSumN, div_self hS]

/-- Witness for `C1_row_stochastic` at the corpus `["ab"]`, row 0. -/
theorem C1_row_stochastic_witness :
    0 < rowSumN ["ab"] 0 ∧
    ((∀ j, normalized_bigram_counts ["ab"] 0 j = some (probVal ["ab"] 0 j)) ∧
      (∑ j ∈ Finset.range (vocab_size ["ab"]), probVal ["ab"] 0 j) = 1) :=
  ⟨by decide, C1_row_stochastic ["ab"] 0 (by decide)⟩

/-! ## C3: a zero row-sum is not surfaced at build time -/

/-- C3 counterexample: on the empty corpus the boundary row-sum is exactly 0,
yet the Probability Table build performs the division anyway: the resulting
entry is `none` (the model of the IEEE NaN produced by `0.0/0.0`), not a
raised error and not the uniform distribution (which over this
`vocab_size = 1` table would be the entry `some 1`). The NaN row sits in
`normalized_bigram_counts`, the very table the sampling loop reads. -/
theorem C3_counterexample :
    vocab_size [] = 1 ∧ rowSumN [] 0 = 0 ∧
    normalized_bigram_counts [] 0 0 = none ∧
    normalized_bigram_counts [] 0 0 ≠ some 1 := by
  have h : rowSumN [] 0 = 0 := by decide
  have hn : normalized_bigram_counts [] 0 0 = none := by
    rw [normalized_bigram_counts, h, floatDiv]
    simp
  exact ⟨by decide, h, hn, by rw [hn]; exact fun hc => Option.noConfusion hc⟩

/-- C3 amended: when a row of the Frequency Table has row-sum exactly 0, the
build neither raises an error nor substitutes a uniform distribution; it
divides by zero, so every float entry of that row of the Probability Table
is undefined (NaN, modelled `none`), deferring the failure to sampling time. -/
theorem C3_zero_row_nan (words : Corpus) (i : ℕ) (h : rowSumN words i = 0) :
    ∀ j, normalized_bigram_counts words i j = none := by
  intro j
  rw [normalized_bigram_counts, h, floatDiv]
  simp

/-- Witness for `C3_zero_row_nan`: the empty corpus, boundary row. -/
theorem C3_zero_row_nan_witness :
    rowSumN [] 0 = 0 ∧ normalized_bigram_counts [] 0 0 = none :=
  ⟨by decide, C3_zero_row_nan [] 0 (by decide) 0⟩

/-! ## C4: the empty corpus is not rejected -/

/-- C4 counterexample: on a corpus with zero tokens the script does not fail
at Vocabulary build: it builds the vocabulary (only the boundary symbol,
`vocab_size = 1`, `stoi` and `itos` defined on it) and then the all-zero
1×1 Frequency Table — a (partial) model is produced, and no
`EmptyCorpusError` exists anywhere in the program. -/
theorem C4_counterexample :
    characters [] = [] ∧ vocab_size [] = 1 ∧ stoi [] '^' = some 0 ∧
    itos [] 0 = some '^' ∧ bigram_counts [] 0 0 = 0 := by
  decide

/-- C4 amended: for the corpus with zero tokens the build completes without
any failure: the Vocabulary is `{'^' ↦ 0}` with `vocab_size = 1`, every
Frequency Table cell is 0, and every Probability Table entry is the NaN of
the ensuing zero division — the failure only surfaces later, at sampling. -/
theorem C4_empty_corpus_builds :
    vocab_size [] = 1 ∧ stoi [] '^' = some 0 ∧
    (∀ i j : ℕ, bigram_counts [] i j = 0) ∧
    (∀ i j : ℕ, normalized_bigram_counts [] i j = none) := by
  refine ⟨by decide, by decide, fun i j => rfl, fun i j => ?_⟩
  have h : rowSumN [] i = 0 := by
    rw [rowSumN]
    exact Finset.sum_eq_zero fun j _ => rfl
  rw [normalized_bigram_counts, h, floatDiv]
  simp

/-! ## C5: the symbol-index mapping -/

/-- C5 counterexample: for the corpus `["^"]` the character `'^'` is itself a
corpus symbol; `stoi['^'] = 0` overwrites its enumerate entry, so the
corpus-derived symbol `'^'` shares index 0 with the boundary symbol, and
index 1 < `vocab_size` = 2 has no symbol mapped to it (`itos` has no key 1):
`stoi` is not a bijection onto `[0, 2)` and the boundary index is not
distinct from every corpus-derived symbol's index. -/
theorem C5_counterexample :
    characters ["^"] = ['^'] ∧ vocab_size ["^"] = 2 ∧
    stoi ["^"] '^' = some 0 ∧ itos ["^"] 1 = none := by
  decide

/-- C5 amended: for every corpus none of whose characters is `'^'`, the map
`stoi` is a bijection from the boundary symbol plus the alphabet onto the
dense range `[0, vocab_size)` with inverse `itos`; the boundary symbol maps
to index 0 and no corpus-derived symbol shares that index. -/
theorem C5_stoi_bijection (words : Corpus) (h : '^' ∉ characters words) :
    stoi words '^' = some 0 ∧
    (∀ k, k < vocab_size words → ∃ c, itos words k = some c ∧ stoi words c = some k) ∧
    (∀ c k, stoi words c = some k → k < vocab_size words ∧ itos words k = some c) ∧
    (∀ c, c ∈ characters words → stoi words c ≠ some 0) := by
  have hne : ∀ c, c ∈ characters words → c ≠ '^' := by
    intro c hc hcb
    exact h (hcb ▸ hc)
  have hitos_succ : ∀ (m : ℕ) (c : Char), (characters words).get? m = some c →
      itos words (m + 1) = some c := by
    intro m c hget
    have hc' : c ≠ '^' := hne c (List.get?_mem hget)
    unfold itos
    rw [if_neg (Nat.succ_ne_zero m)]
    have hm1 : m + 1 - 1 = m := rfl
    rw [hm1, hget]
    change (if c = '^' then none else some c) = some c
    rw [if_neg hc']
  refine ⟨stoi_boundary words, ?_, ?_, ?_⟩
  · intro k hk
    match k with
    | 0 =>
      refine ⟨'^', ?_, stoi_boundary words⟩
      unfold itos
      rw [if_pos rfl]
    | m + 1 =>
      have hm : m < (characters words).length := Nat.lt_of_succ_lt_succ hk
      have hget : (characters words).get? m = some ((characters words).get ⟨m, hm⟩) :=
        List.get?_eq_get hm
      set c := (characters words).get ⟨m, hm⟩ with hcdef
      have hcm : c ∈ characters words := List.get?_mem hget
      have hidx : (characters words).indexOf c = m := by
        have h1 : (characters words).get? ((characters words).indexOf c) = some c :=
          List.indexOf_get? hcm
        have h2 : (characters words).indexOf c < (characters words).length :=
          List.indexOf_lt_length.2 hcm
        refine List.getElem?_inj h2 (characters_nodup words) ?_
        rw [← List.get?_eq_getElem?, ← List.get?_eq_getElem?, h1, hget]
      refine ⟨c, hitos_succ m c hget, ?_⟩
      rw [stoi_of_mem hcm (hne c hcm), hidx]
  · intro c k hk
    unfold stoi at hk
    by_cases hcb : c = '^'
    · rw [if_pos hcb] at hk
      cases hk
      refine ⟨vocab_size_pos words, ?_⟩
      unfold itos
      rw [if_pos rfl, hcb]
    · rw [if_neg hcb] at hk
      by_cases hcm : c ∈ characters words
      · rw [if_pos hcm] at hk
        cases hk
        refine ⟨Nat.succ_lt_succ (List.indexOf_lt_length.2 hcm), ?_⟩
        exact hitos_succ _ c (List.indexOf_get? hcm)
      · rw [if_neg hcm] at hk
        cases hk
  · intro c hcm hk
    rw [stoi_of_mem hcm (hne c hcm)] at hk
    cases hk

/-- Witness for `C5_stoi_bijection` at the corpus `["ab"]`. -/
theorem C5_stoi_bijection_witness :
    '^' ∉ characters ["ab"] ∧ stoi ["ab"] '^' = some 0 :=
  ⟨by decide, (C5_stoi_bijection ["ab"] (by decide)).1⟩

/-! ## C8 and C9: the sampling loop -/

theorem genFrom_no_boundary (words : Corpus) :
    ∀ (us : List ℚ) (i : ℕ), '^' ∉ genFrom words i us := by
  intro us
  induction us with
  | nil => intro i; exact List.not_mem_nil '^'
  | cons u us ih =>
    intro i
    rw [genFrom]
    cases hd : itos words (sampleIdx words i u) with
    | none => exact List.not_mem_nil '^'
    | some c =>
      show '^' ∉ (if c = '^' then ([] : List Char)
        else c :: genFrom words (sampleIdx words i u) us)
      by_cases hc : c = '^'
      · rw [if_pos hc]
        exact List.not_mem_nil '^'
      · rw [if_neg hc]
        intro hmem
        rcases List.mem_cons.1 hmem with h | h
        · exact hc h.symm
        · exact ih _ h

/-- C8: for every corpus and every stream of uniform draws, the token the
sampling loop emits never contains the boundary symbol `'^'`: the loop
stops on a draw whose `itos` image is `'^'` and prints a character only for
non-boundary draws. -/
theorem C8_no_boundary_in_output (words : Corpus) (us : List ℚ) :
    '^' ∉ generate words us :=
  genFrom_no_boundary words us 0

theorem cumProb_congr {words₁ words₂ : Corpus}
    (hP : ∀ i j, probVal words₁ i j = probVal words₂ i j) (i j : ℕ) :
    cumProb words₁ i j = cumProb words₂ i j :=
  Finset.sum_congr rfl fun k _ => hP i k

theorem sampleIdx_congr {words₁ words₂ : Corpus}
    (hV : vocab_size words₁ = vocab_size words₂)
    (hP : ∀ i j, probVal words₁ i j = probVal words₂ i j) (i : ℕ) (u : ℚ) :
    sampleIdx words₁ i u = sampleIdx words₂ i u := by
  unfold sampleIdx
  rw [hV]
  have hpred : (fun j => decide (u < cumProb words₁ i j))
      = fun j => decide (u < cumProb words₂ i j) := by
    funext j
    rw [cumProb_congr hP]
  rw [hpred]

/-- C9: the Sampler is a deterministic function of the (frozen) Probability
Table, the index-to-symbol map and the randomness stream: two generation
runs over vocabularies of the same size whose probability tables, `itos`
maps and uniform-draw streams agree consume the draws identically and emit
the identical token. In particular, with a fixed random seed (hence an
identical stream) repeated runs produce the same output. -/
theorem C9_sampler_deterministic (words₁ words₂ : Corpus) (us : List ℚ)
    (hV : vocab_size words₁ = vocab_size words₂)
    (hP : ∀ i j, probVal words₁ i j = probVal words₂ i j)
    (hI : ∀ d, itos words₁ d = itos words₂ d) :
    generate words₁ us = generate words₂ us := by
  suffices h : ∀ (us : List ℚ) (i : ℕ), genFrom words₁ i us = genFrom words₂ i us from
    h us 0
  intro us
  induction us with
  | nil => intro i; rfl
  | cons u us ih =>
    intro i
    rw [genFrom, genFrom]
    rw [sampleIdx_congr hV hP, hI]
    cases itos words₂ (sampleIdx words₂ i u) with
    | none => rfl
    | some c =>
      show (if c = '^' then ([] : List Char)
          else c :: genFrom words₁ (sampleIdx words₂ i u) us)
        = (if c = '^' then ([] : List Char)
          else c :: genFrom words₂ (sampleIdx words₂ i u) us)
      by_cases hc : c = '^'
      · rw [if_pos hc, if_pos hc]
      · rw [if_neg hc, if_neg hc, ih]

/-- Witness for `C9_sampler_deterministic`: two runs on the corpus `["ab"]`
with the same one-draw stream. -/
theorem C9_sampler_deterministic_witness :
    generate ["ab"] [(1 : ℚ) / 2] = generate ["ab"] [(1 : ℚ) / 2] :=
  C9_sampler_deterministic ["ab"] ["ab"] [(1 : ℚ) / 2] rfl
    (fun _ _ => rfl) (fun _ => rfl)

/-! ## C2: almost-sure termination of the sampling loop

`loopSurvive words n i` is the probability that the loop has not yet drawn
the boundary index within `n` draws from state `i`. Termination with
probability 1 from the start state 0 is the statement that
`loopSurvive words n 0` falls below every positive `ε` eventually. -/

theorem probVal_nonneg (words : Corpus) (i j : ℕ) : 0 ≤ probVal words i j :=
  div_nonneg (Nat.cast_nonneg _) (Nat.cast_nonneg _)

theorem bigram_le_rowSum {words : Corpus} {i j : ℕ} (hj : j < vocab_size words) :
    bigram_counts words i j ≤ rowSumN words i :=
  Finset.single_le_sum (fun _ _ => Nat.zero_le _) (Finset.mem_range.2 hj)

theorem probVal_pos {words : Corpus} {i j : ℕ} (hj : j < vocab_size words)
    (h : 0 < bigram_counts words i j) : 0 < probVal words i j := by
  refine div_pos (by exact_mod_cast h) ?_
  have : 0 < rowSumN words i := lt_of_lt_of_le h (bigram_le_rowSum hj)
  exact_mod_cast this

theorem probRow_sum_one {words : Corpus} {i : ℕ} (h : 0 < rowSumN words i) :
    (∑ j ∈ Finset.range (vocab_size words), probVal words i j) = 1 := by
  have hS : ((rowSumN words i : ℕ) : ℚ) ≠ 0 := by exact_mod_cast h.ne'
  unfold probVal
  rw [← Finset.sum_div, ← Nat.cast_sum, ← rowSumN, div_self hS]

theorem sum_probVal_le_one (words : Corpus) (i : ℕ) :
    (∑ j ∈ Finset.range (vocab_size words), probVal words i j) ≤ 1 := by
  rcases Nat.eq_zero_or_pos (rowSumN words i) with h | h
  · have hz : ∀ j ∈ Finset.range (vocab_size words), probVal words i j = 0 := by
      intro j hj
      have : bigram_counts words i j = 0 :=
        Nat.le_zero.1 (h ▸ bigram_le_rowSum (Finset.mem_range.1 hj))
      rw [probVal, this]
      simp
    rw [Finset.sum_congr rfl hz]
    simp
  · rw [probRow_sum_one h]

theorem sum_probVal_erase_le_one (words : Corpus) (i : ℕ) :
    (∑ j ∈ (Finset.range (vocab_size words)).erase 0, probVal words i j) ≤ 1 :=
  le_trans
    (Finset.sum_le_sum_of_subset_of_nonneg (Finset.erase_subset _ _)
      fun j _ _ => probVal_nonneg words i j)
    (sum_probVal_le_one words i)

theorem loopSurvive_nonneg (words : Corpus) : ∀ (n : ℕ) (i : ℕ),
    0 ≤ loopSurvive words n i := by
  intro n
  induction n with
  | zero => intro i; rw [loopSurvive]; exact zero_le_one
  | succ n ih =>
    intro i
    rw [loopSurvive]
    exact Finset.sum_nonneg fun j _ => mul_nonneg (probVal_nonneg words i j) (ih j)

theorem loopSurvive_le_one (words : Corpus) : ∀ (n : ℕ) (i : ℕ),
    loopSurvive words n i ≤ 1 := by
  intro n
  induction n with
  | zero => intro i; rw [loopSurvive]
  | succ n ih =>
    intro i
    rw [loopSurvive]
    calc (∑ j ∈ (Finset.range (vocab_size words)).erase 0,
            probVal words i j * loopSurvive words n j)
        ≤ ∑ j ∈ (Finset.range (vocab_size words)).erase 0, probVal words i j := by
          refine Finset.sum_le_sum fun j _ => ?_
          calc probVal words i j * loopSurvive words n j
              ≤ probVal words i j * 1 :=
                mul_le_mul_of_nonneg_left (ih j) (probVal_nonneg words i j)
            _ = probVal words i j := mul_one _
      _ ≤ 1 := sum_probVal_erase_le_one words i

theorem loopSurvive_succ_le (words : Corpus) : ∀ (n : ℕ) (i : ℕ),
    loopSurvive words (n + 1) i ≤ loopSurvive words n i := by
  intro n
  induction n with
  | zero => intro i; exact loopSurvive_le_one words 1 i
  | succ n ih =>
    intro i
    rw [loopSurvive, loopSurvive]
    exact Finset.sum_le_sum fun j _ =>
      mul_le_mul_of_nonneg_left (ih j) (probVal_nonneg words i j)

theorem loopSurvive_anti (words : Corpus) {n m : ℕ} (h : n ≤ m) (i : ℕ) :
    loopSurvive words m i ≤ loopSurvive words n i := by
  induction m with
  | zero =>
    cases Nat.le_zero.1 h
    exact le_refl _
  | succ m ih =>
    rcases Nat.lt_or_ge n (m + 1) with hlt | hge
    · exact le_trans (loopSurvive_succ_le words m i) (ih (Nat.lt_succ_iff.1 hlt))
    · cases Nat.le_antisymm h hge
      exact le_refl _

/-- Composition: surviving `m + n` draws from a state inside the table
requires surviving `m` draws and then, from wherever the walk is, `n` more;
`B` is any uniform bound on the latter. -/
theorem loopSurvive_compose (words : Corpus) {n : ℕ} {B : ℚ}
    (hbound : ∀ j, j < vocab_size words → loopSurvive words n j ≤ B) :
    ∀ (m : ℕ) (i : ℕ), i < vocab_size words →
      loopSurvive words (m + n) i ≤ loopSurvive words m i * B := by
  intro m
  induction m with
  | zero =>
    intro i hi
    rw [Nat.zero_add, loopSurvive, one_mul]
    exact hbound i hi
  | succ m ih =>
    intro i _
    have hstep : m + 1 + n = (m + n) + 1 := by omega
    rw [hstep, loopSurvive, loopSurvive, Finset.sum_mul]
    refine Finset.sum_le_sum fun j hj => ?_
    have hjV : j < vocab_size words :=
      Finset.mem_range.1 (Finset.mem_of_mem_erase hj)
    calc probVal words i j * loopSurvive words (m + n) j
        ≤ probVal words i j * (loopSurvive words m j * B) :=
          mul_le_mul_of_nonneg_left (ih j hjV) (probVal_nonneg words i j)
      _ = probVal words i j * loopSurvive words m j * B := (mul_assoc _ _ _).symm

/-- A state with an observed transition to the boundary column escapes in
one draw with positive probability. -/
theorem escape_of_boundary_count {words : Corpus} {i : ℕ}
    (h : 0 < bigram_counts words i 0) : loopSurvive words 1 i < 1 := by
  have h0V : (0 : ℕ) ∈ Finset.range (vocab_size words) :=
    Finset.mem_range.2 (vocab_size_pos words)
  have hS : 0 < rowSumN words i := lt_of_lt_of_le h (bigram_le_rowSum (vocab_size_pos words))
  have hP0 : 0 < probVal words i 0 := probVal_pos (vocab_size_pos words) h
  have hsum :
      (∑ j ∈ (Finset.range (vocab_size words)).erase 0, probVal words i j)
        + probVal words i 0 = 1 := by
    rw [Finset.sum_erase_add _ _ h0V]
    exact probRow_sum_one hS
  have h1 : loopSurvive words 1 i
      = ∑ j ∈ (Finset.range (vocab_size words)).erase 0, probVal words i j := by
    rw [loopSurvive]
    refine Finset.sum_congr rfl fun j _ => ?_
    rw [loopSurvive, mul_one]
  rw [h1]
  linarith

/-- Escape propagates backward along an observed transition: if the walk can
move from `i` to a non-boundary state `j` with positive probability and `j`
escapes within `n` draws with positive probability, then `i` escapes within
`n + 1` draws with positive probability. -/
theorem escape_step {words : Corpus} {i j n : ℕ}
    (hij : 0 < bigram_counts words i j) (hj0 : j ≠ 0) (hjV : j < vocab_size words)
    (hn : loopSurvive words n j < 1) : loopSurvive words (n + 1) i < 1 := by
  have hjmem : j ∈ (Finset.range (vocab_size words)).erase 0 :=
    Finset.mem_erase.2 ⟨hj0, Finset.mem_range.2 hjV⟩
  have hPij : 0 < probVal words i j := probVal_pos hjV hij
  rw [loopSurvive]
  have hsplit :
      (∑ k ∈ ((Finset.range (vocab_size words)).erase 0).erase j,
          probVal words i k * loopSurvive words n k)
        + probVal words i j * loopSurvive words n j
      = ∑ k ∈ (Finset.range (vocab_size words)).erase 0,
          probVal words i k * loopSurvive words n k :=
    Finset.sum_erase_add _ _ hjmem
  rw [← hsplit]
  have hrest :
      (∑ k ∈ ((Finset.range (vocab_size words)).erase 0).erase j,
          probVal words i k * loopSurvive words n k)
        ≤ ∑ k ∈ ((Finset.range (vocab_size words)).erase 0).erase j,
            probVal words i k := by
    refine Finset.sum_le_sum fun k _ => ?_
    calc probVal words i k * loopSurvive words n k
        ≤ probVal words i k * 1 :=
          mul_le_mul_of_nonneg_left (loopSurvive_le_one words n k) (probVal_nonneg words i k)
      _ = probVal words i k := mul_one _
  have hlast : probVal words i j * loopSurvive words n j < probVal words i j := by
    calc probVal words i j * loopSurvive words n j
        < probVal words i j * 1 := by
          exact mul_lt_mul_of_pos_left hn hPij
      _ = probVal words i j := mul_one _
  have htot :
      (∑ k ∈ ((Finset.range (vocab_size words)).erase 0).erase j, probVal words i k)
        + probVal words i j ≤ 1 := by
    rw [Finset.sum_erase_add _ _ hjmem]
    exact sum_probVal_erase_le_one words i
  linarith

/-- The relation on characters "this adjacent pair was observed by the
counting loop": both characters have indices and the corresponding cell of
the Frequency Table is positive. -/
def obsPair (words : Corpus) (x y : Char) : Prop :=
  ∃ a b, stoi words x = some a ∧ stoi words y = some b ∧ 0 < bigram_counts words a b

theorem count_pos_of_mem_allPairs {words : Corpus} {p : Char × Char} {a b : ℕ}
    (hp : p ∈ allPairs words) (ha : stoi words p.1 = some a)
    (hb : stoi words p.2 = some b) : 0 < bigram_counts words a b := by
  refine List.countP_pos_iff.2 ⟨p, hp, ?_⟩
  simp [ha, hb]

theorem chain'_of_zip {α : Type} {Rel : α → α → Prop} :
    ∀ l : List α, (∀ p ∈ l.zip l.tail, Rel p.1 p.2) → List.Chain' Rel l := by
  intro l
  induction l with
  | nil => intro _; exact List.chain'_nil
  | cons a l ih =>
    intro h
    match l, ih with
    | [], _ => exact List.chain'_singleton a
    | b :: l, ih =>
      refine List.chain'_cons.2 ⟨h (a, b) (List.mem_cons_self _ _), ih ?_⟩
      intro p hp
      exact h p (List.mem_cons_of_mem _ hp)

/-- Every padded corpus token is a chain of observed pairs. -/
theorem chain_padded {words : Corpus} {w : String} (hw : w ∈ words) :
    List.Chain' (obsPair words) (padded_name w) := by
  refine chain'_of_zip (padded_name w) fun p hp => ?_
  have hmem : p ∈ namePairs w := hp
  have hall : p ∈ allPairs words := List.mem_flatMap.2 ⟨w, hw, hmem⟩
  have hz := List.of_mem_zip hp
  obtain ⟨a, ha, _⟩ := stoi_padded hw hz.1
  obtain ⟨b, hb, _⟩ := stoi_padded hw (List.mem_of_mem_tail hz.2)
  exact ⟨a, b, ha, hb, count_pos_of_mem_allPairs hall ha hb⟩

/-- Walking down a chain of observed pairs that ends at the boundary symbol,
every state along it escapes with positive probability in finitely many
draws. -/
theorem chain_escape {words : Corpus} :
    ∀ (l : List Char) (c : Char) (ic : ℕ),
      List.Chain' (obsPair words) (c :: l ++ ['^']) → stoi words c = some ic →
      ∃ n, 1 ≤ n ∧ loopSurvive words n ic < 1 := by
  intro l
  induction l with
  | nil =>
    intro c ic hchain hc
    obtain ⟨hR, -⟩ := List.chain'_cons.1 hchain
    obtain ⟨a, b, ha, hb, hpos⟩ := hR
    rw [hc] at ha
    cases ha
    rw [stoi_boundary words] at hb
    cases hb
    exact ⟨1, le_refl 1, escape_of_boundary_count hpos⟩
  | cons d l ih =>
    intro c ic hchain hc
    obtain ⟨hR, hrest⟩ := List.chain'_cons.1 hchain
    obtain ⟨a, b, ha, hb, hpos⟩ := hR
    rw [hc] at ha
    cases ha
    rcases Nat.eq_zero_or_pos b with hb0 | hbpos
    · cases hb0
      exact ⟨1, le_refl 1, escape_of_boundary_count hpos⟩
    · obtain ⟨n, hn1, hlt⟩ := ih d b hrest hb
      exact ⟨n + 1, Nat.le_succ_of_le hn1,
        escape_step hpos (Nat.pos_iff_ne_zero.1 hbpos) (stoi_lt hb) hlt⟩

/-- In the duplicate-free alphabet, the index of the `m`-th character is `m`. -/
theorem indexOf_of_get? {words : Corpus} {m : ℕ} {c : Char}
    (h : (characters words).get? m = some c) : (characters words).indexOf c = m := by
  have hcm : c ∈ characters words := List.get?_mem h
  have h1 : (characters words).get? ((characters words).indexOf c) = some c :=
    List.indexOf_get? hcm
  have h2 : (characters words).indexOf c < (characters words).length :=
    List.indexOf_lt_length.2 hcm
  refine List.getElem?_inj h2 (characters_nodup words) ?_
  rw [← List.get?_eq_getElem?, ← List.get?_eq_getElem?, h1, h]

/-- If `characters[m] = '^'`, index `m + 1` is orphaned: `stoi` never
produces it (`stoi['^']` was overwritten to 0), so its row of the Frequency
Table is identically zero. -/
theorem orphan_row_zero {words : Corpus} {m : ℕ}
    (h : (characters words).get? m = some '^') :
    ∀ j, bigram_counts words (m + 1) j = 0 := by
  have hnone : ∀ d, stoi words d ≠ some (m + 1) := by
    intro d hd
    unfold stoi at hd
    by_cases hdb : d = '^'
    · rw [if_pos hdb] at hd
      cases hd
    · rw [if_neg hdb] at hd
      by_cases hdm : d ∈ characters words
      · rw [if_pos hdm] at hd
        have hidx : (characters words).indexOf d = m := by
          have := Option.some_inj.1 hd
          omega
        have : (characters words).get? m = some d := hidx ▸ List.indexOf_get? hdm
        rw [h] at this
        exact hdb (Option.some_inj.1 this).symm
      · rw [if_neg hdm] at hd
        cases hd
  intro j
  rw [bigram_counts]
  refine List.countP_eq_zero.2 fun p _ => ?_
  simp only [decide_eq_true_eq, not_and]
  intro hp1
  exact absurd hp1 (hnone p.1)

/-- A state whose Frequency Table row is identically zero survives no draw:
its outgoing probabilities are all zero. -/
theorem zero_row_escape {words : Corpus} {i : ℕ}
    (h : ∀ j, bigram_counts words i j = 0) : loopSurvive words 1 i < 1 := by
  rw [loopSurvive]
  have hz : ∀ j ∈ (Finset.range (vocab_size words)).erase 0,
      probVal words i j * loopSurvive words 0 j = 0 := by
    intro j _
    rw [probVal, h j]
    simp
  rw [Finset.sum_congr rfl hz]
  simp

/-- From every state of the table of a nonempty corpus, the loop escapes
with positive probability within finitely many draws. -/
theorem escape_all {words : Corpus} (hw : words ≠ []) :
    ∀ i, i < vocab_size words → ∃ n, 1 ≤ n ∧ loopSurvive words n i < 1 := by
  intro i hi
  match i with
  | 0 =>
    obtain ⟨w, hwmem⟩ := List.exists_mem_of_ne_nil words hw
    exact chain_escape w.data '^' 0 (chain_padded hwmem) (stoi_boundary words)
  | m + 1 =>
    have hm : m < (characters words).length := Nat.lt_of_succ_lt_succ hi
    have hget : (characters words).get? m = some ((characters words).get ⟨m, hm⟩) :=
      List.get?_eq_get hm
    set c := (characters words).get ⟨m, hm⟩ with hcdef
    by_cases hcb : c = '^'
    · exact ⟨1, le_refl 1, zero_row_escape (orphan_row_zero (hcb ▸ hget))⟩
    · have hcm : c ∈ characters words := List.get?_mem hget
      obtain ⟨w, hwmem, hcw⟩ := mem_corpusChars.1 (mem_characters.1 hcm)
      obtain ⟨l1, l2, hsplit⟩ := List.append_of_mem hcw
      have hchain : List.Chain' (obsPair words) (c :: l2 ++ ['^']) := by
        have hfull := chain_padded hwmem
        rw [padded_name, hsplit] at hfull
        have heq : '^' :: (l1 ++ c :: l2) ++ ['^']
            = ('^' :: l1) ++ (c :: l2 ++ ['^']) := by
          simp [List.append_assoc]
        rw [heq] at hfull
        exact hfull.right_of_append
      have hstoi : stoi words c = some (m + 1) := by
        rw [stoi_of_mem hcm hcb, indexOf_of_get? hget]
      exact chain_escape l2 c (m + 1) hchain hstoi

/-- Over the finitely many states there are a single horizon `L` and a
single bound `B < 1` on the probability of surviving `L` draws. -/
theorem exists_uniform_bound {words : Corpus} (hw : words ≠ []) :
    ∃ L B, 0 ≤ B ∧ B < 1 ∧
      ∀ i, i < vocab_size words → loopSurvive words L i ≤ B := by
  have hesc : ∀ i : ℕ, ∃ n, i < vocab_size words →
      1 ≤ n ∧ loopSurvive words n i < 1 := by
    intro i
    by_cases hi : i < vocab_size words
    · obtain ⟨n, hn⟩ := escape_all hw i hi
      exact ⟨n, fun _ => hn⟩
    · exact ⟨1, fun h => absurd h hi⟩
  choose f hf using hesc
  have hne : (Finset.range (vocab_size words)).Nonempty :=
    ⟨0, Finset.mem_range.2 (vocab_size_pos words)⟩
  refine ⟨(Finset.range (vocab_size words)).sup f,
    (Finset.range (vocab_size words)).sup' hne
      (loopSurvive words ((Finset.range (vocab_size words)).sup f)), ?_, ?_, ?_⟩
  · exact le_trans
      (loopSurvive_nonneg words _ 0)
      (Finset.le_sup' _ (Finset.mem_range.2 (vocab_size_pos words)))
  · refine (Finset.sup'_lt_iff hne).2 fun i hi => ?_
    obtain ⟨-, hlt⟩ := hf i (Finset.mem_range.1 hi)
    exact lt_of_le_of_lt (loopSurvive_anti words (Finset.le_sup hi) i) hlt
  · intro i hi
    exact Finset.le_sup' _ (Finset.mem_range.2 hi)

/-- Surviving `k` horizons of `L` draws is exponentially unlikely. -/
theorem loopSurvive_pow {words : Corpus} {L : ℕ} {B : ℚ} (hB0 : 0 ≤ B)
    (hbound : ∀ i, i < vocab_size words → loopSurvive words L i ≤ B) :
    ∀ (k : ℕ) (i : ℕ), i < vocab_size words →
      loopSurvive words (k * L) i ≤ B ^ k := by
  intro k
  induction k with
  | zero =>
    intro i _
    rw [Nat.zero_mul, loopSurvive, pow_zero]
  | succ k ih =>
    intro i hi
    have h1 : (k + 1) * L = L + k * L := by ring
    rw [h1]
    calc loopSurvive words (L + k * L) i
        ≤ loopSurvive words L i * B ^ k :=
          loopSurvive_compose words (fun j hj => ih j hj) L i hi
      _ ≤ B * B ^ k := mul_le_mul_of_nonneg_right (hbound i hi) (pow_nonneg hB0 k)
      _ = B ^ (k + 1) := (pow_succ' B k).symm

/-- C2: for the Probability Table built from any nonempty corpus (every
corpus token being a finite string, each contributes an end-of-token
transition into the boundary column), the sampling loop started at boundary
index 0 terminates with probability 1: the probability `loopSurvive` of the
loop still running after `n` draws falls below every positive `ε` for all
large `n`, so a finite token is produced almost surely. -/
theorem C2_terminates_whp (words : Corpus) (hw : words ≠ []) :
    ∀ ε : ℚ, 0 < ε → ∃ N, ∀ n, N ≤ n → loopSurvive words n 0 < ε := by
  obtain ⟨L, B, hB0, hB1, hbound⟩ := exists_uniform_bound hw
  intro ε hε
  obtain ⟨K, hK⟩ := exists_pow_lt_of_lt_one hε hB1
  refine ⟨K * L, fun n hn => ?_⟩
  have h1 : loopSurvive words n 0 ≤ loopSurvive words (K * L) 0 :=
    loopSurvive_anti words hn 0
  have h2 : loopSurvive words (K * L) 0 ≤ B ^ K :=
    loopSurvive_pow hB0 hbound K 0 (vocab_size_pos words)
  linarith

/-- Witness for `C2_terminates_whp`: the corpus `["ab"]` and `ε = 1`. -/
theorem C2_terminates_whp_witness :
    (["ab"] : Corpus) ≠ [] ∧
    ∃ N, ∀ n, N ≤ n → loopSurvive ["ab"] n 0 < 1 :=
  ⟨by decide, C2_terminates_whp ["ab"] (by decide) 1 one_pos⟩
